import Mathlib

set_option autoImplicit false

/-
Verification of the EvoX stateful-to-pure-functional compilation layer.

The repository ships the layer's documentation (a tutorial notebook); the
implementation modules (`evox.core.module`, `evox.core.jit_util`) are not part
of the source tree here, so every operational definition below is modelled
from the specification text and marked as such in its doc comment.
-/

namespace EvoX

/-- Attribute paths are dotted strings such as `self.sub_mod.buf`. -/
abbrev Path := String

/-- Tensor values are modelled as integers (the scalar content relevant to the
state-threading claims). -/
abbrev Value := Int

/-- Modelled from the spec: a State Snapshot is a flat mapping from dotted
attribute path to tensor value (spec section 3, `Dict[str, torch.Tensor]` in the
notebook); the implementation `use_state`/`init_state` machinery is missing
from the source tree. Represented as an association list. -/
abbrev Snapshot := List (Path × Value)

/-- Modelled from the spec: a Module is an arena of mutable attribute slots
addressed by dotted path (spec section 9: "represent modules as an arena of
attribute slots addressed by dotted path, not as a pointer graph"); the
`ModuleBase` implementation is missing from the source tree. -/
abbrev Module := List (Path × Value)

/-- Look up the value stored at path `p` (first binding wins). -/
def getAttr : List (Path × Value) → Path → Option Value
  | [], _ => none
  | (q, v) :: rest, p => if q = p then some v else getAttr rest p

/-- Overwrite the binding at path `p`, or append a fresh binding if absent. -/
def setAttr : List (Path × Value) → Path → Value → List (Path × Value)
  | [], p, v => [(p, v)]
  | (q, w) :: rest, p, v =>
    if q = p then (q, v) :: rest else (q, w) :: setAttr rest p v

/-- The paths bound in a module or snapshot. -/
def keys (m : List (Path × Value)) : List Path := m.map Prod.fst

/-- A well-formed module binds each path at most once. -/
def WfMod (m : List (Path × Value)) : Prop := (keys m).Nodup

instance (m : List (Path × Value)) : Decidable (WfMod m) :=
  inferInstanceAs (Decidable (keys m).Nodup)

theorem keys_cons (q : Path) (w : Value) (tl : List (Path × Value)) :
    keys ((q, w) :: tl) = q :: keys tl := rfl

/-- Observational equality of module states: both answer every attribute
lookup identically. -/
def ModEq (m1 m2 : List (Path × Value)) : Prop :=
  ∀ p, getAttr m1 p = getAttr m2 p

theorem getAttr_setAttr_self (m : List (Path × Value)) (p : Path) (v : Value) :
    getAttr (setAttr m p v) p = some v := by
  induction m with
  | nil => simp [setAttr, getAttr]
  | cons hd tl ih =>
    obtain ⟨q, w⟩ := hd
    by_cases h : q = p
    · simp [setAttr, getAttr, h]
    · simp [setAttr, getAttr, h, ih]

theorem getAttr_setAttr_ne (m : List (Path × Value)) {p q : Path}
    (h : p ≠ q) (v : Value) : getAttr (setAttr m p v) q = getAttr m q := by
  induction m with
  | nil => simp [setAttr, getAttr, h]
  | cons hd tl ih =>
    obtain ⟨r, w⟩ := hd
    by_cases hr : r = p
    · subst hr
      simp [setAttr, getAttr, h]
    · simp [setAttr, getAttr, hr, ih]

theorem mem_keys_setAttr (m : List (Path × Value)) (p q : Path) (v : Value) :
    q ∈ keys (setAttr m p v) ↔ q = p ∨ q ∈ keys m := by
  induction m with
  | nil => simp [setAttr, keys]
  | cons hd tl ih =>
    obtain ⟨r, w⟩ := hd
    by_cases hr : r = p
    · subst hr
      rw [setAttr, if_pos rfl, keys_cons, keys_cons]
      simp only [List.mem_cons]
      tauto
    · rw [setAttr, if_neg hr, keys_cons, keys_cons]
      simp only [List.mem_cons, ih]
      tauto

theorem getAttr_eq_none_iff (m : List (Path × Value)) (p : Path) :
    getAttr m p = none ↔ p ∉ keys m := by
  induction m with
  | nil => simp [getAttr, keys]
  | cons hd tl ih =>
    obtain ⟨q, w⟩ := hd
    by_cases h : q = p
    · simp [getAttr, keys, h]
    · simp [getAttr, keys, h, ih]
      tauto

theorem wfMod_setAttr {m : List (Path × Value)} (hm : WfMod m)
    (p : Path) (v : Value) : WfMod (setAttr m p v) := by
  induction m with
  | nil => simp [setAttr, WfMod, keys]
  | cons hd tl ih =>
    obtain ⟨q, w⟩ := hd
    rw [WfMod, keys_cons, List.nodup_cons] at hm
    by_cases h : q = p
    · subst h
      rw [setAttr, if_pos rfl, WfMod, keys_cons, List.nodup_cons]
      exact hm
    · rw [setAttr, if_neg h, WfMod, keys_cons, List.nodup_cons]
      refine ⟨?_, ih hm.2⟩
      intro hq
      rcases (mem_keys_setAttr tl p q v).mp hq with he | hin
      · exact h he
      · exact hm.1 hin

/-- Expressions an operation body may evaluate: constants, attribute reads,
call arguments, sums and products. -/
inductive Expr where
  | const (n : Value)
  | read (p : Path)
  | arg (i : Nat)
  | add (a b : Expr)
  | mul (a b : Expr)

/-- Evaluate an expression against the call arguments and the current state. -/
def evalExpr (args : List Value) (s : Snapshot) : Expr → Value
  | .const n => n
  | .read p => (getAttr s p).getD 0
  | .arg i => args.getD i 0
  | .add a b => evalExpr args s a + evalExpr args s b
  | .mul a b => evalExpr args s a * evalExpr args s b

/-- A statement of a stateful operation body: an in-place attribute
assignment `self.path = expr`. -/
inductive Stmt where
  | assign (p : Path) (e : Expr)

/-- Modelled from the spec: a stateful Operation is a body of in-place
attribute assignments followed by a returned expression (spec section 3);
the `ModuleBase` method machinery is missing from the source tree. -/
structure Op where
  body : List Stmt
  ret : Expr

/-- Run a statement list, threading the state. -/
def execStmts (args : List Value) : List Stmt → Snapshot → Snapshot
  | [], s => s
  | Stmt.assign p e :: rest, s =>
    execStmts args rest (setAttr s p (evalExpr args s e))

/-- Call an operation directly on a module, mutating it in place: returns
the mutated module and the result value. -/
def callDirect (op : Op) (m : Module) (args : List Value) : Module × Value :=
  let m2 := execStmts args op.body m
  (m2, evalExpr args m2 op.ret)

/-- Modelled from the spec: `init_state(module)` walks the module tree and
returns the initial flat Snapshot (spec section 4.2); the implementation is
missing from the source tree. In the flat-arena model the walk is the
identity on the binding list. -/
def init_state (m : Module) : Snapshot := m

/-- Modelled from the spec: `apply_state(module, state)` writes a Snapshot
back into a module's mutable attributes in place (spec section 4.2); the
implementation is missing from the source tree. -/
def apply_state : Module → Snapshot → Module
  | m, [] => m
  | m, (p, v) :: rest => apply_state (setAttr m p v) rest

/-- Modelled from the spec: the pure function produced by state extraction,
`call(state, *args) -> (state, result)` (spec sections 4.2 and 6); the
`use_state` implementation is missing from the source tree. -/
def extractCall (op : Op) (s : Snapshot) (args : List Value) :
    Snapshot × Value :=
  let s2 := execStmts args op.body s
  (s2, evalExpr args s2 op.ret)

theorem getAttr_apply_state_notin {s : Snapshot} {p : Path}
    (h : p ∉ keys s) (m : Module) : getAttr (apply_state m s) p = getAttr m p := by
  induction s generalizing m with
  | nil => rfl
  | cons hd tl ih =>
    obtain ⟨q, w⟩ := hd
    rw [keys_cons] at h
    simp only [List.mem_cons, not_or] at h
    rw [apply_state, ih h.2, getAttr_setAttr_ne _ (fun he => h.1 he.symm)]

theorem getAttr_apply_state_some {s : Snapshot} (hs : WfMod s) {p : Path}
    {v : Value} (h : getAttr s p = some v) (m : Module) :
    getAttr (apply_state m s) p = some v := by
  induction s generalizing m with
  | nil => simp [getAttr] at h
  | cons hd tl ih =>
    obtain ⟨q, w⟩ := hd
    rw [WfMod, keys_cons, List.nodup_cons] at hs
    by_cases hq : q = p
    · subst hq
      simp [getAttr] at h
      subst h
      rw [apply_state, getAttr_apply_state_notin hs.1, getAttr_setAttr_self]
    · simp [getAttr, hq] at h
      exact ih hs.2 h (setAttr m q w)

theorem modEq_apply_state {s : Snapshot} (hs : WfMod s) {m : Module}
    (hk : ∀ p, p ∈ keys m → p ∈ keys s) : ModEq (apply_state m s) s := by
  intro p
  cases h : getAttr s p with
  | none =>
    have hp : p ∉ keys s := (getAttr_eq_none_iff s p).mp h
    have hm : p ∉ keys m := fun hin => hp (hk p hin)
    rw [getAttr_apply_state_notin hp, (getAttr_eq_none_iff m p).mpr hm]
  | some v => exact getAttr_apply_state_some hs h m

theorem keys_execStmts_subset (args : List Value) (prog : List Stmt)
    (s : Snapshot) : ∀ p, p ∈ keys s → p ∈ keys (execStmts args prog s) := by
  induction prog generalizing s with
  | nil => intro p hp; exact hp
  | cons hd tl ih =>
    obtain ⟨q, e⟩ := hd
    intro p hp
    exact ih _ p ((mem_keys_setAttr s q p _).mpr (Or.inr hp))

theorem wfMod_execStmts (args : List Value) (prog : List Stmt)
    {s : Snapshot} (hs : WfMod s) : WfMod (execStmts args prog s) := by
  induction prog generalizing s with
  | nil => exact hs
  | cons hd tl ih =>
    obtain ⟨q, e⟩ := hd
    exact ih (wfMod_setAttr hs q _)

/-- C1: For every stateful operation and well-formed module, extracting the
operation, running the pure function on the initial snapshot, and writing the
resulting state back with `apply_state` leaves the module observationally
equal to calling the operation directly on it, and both calls return the same
result value (snapshot/apply round-trip). -/
theorem use_state_round_trip (op : Op) (m : Module) (args : List Value)
    (hm : WfMod m) :
    ModEq (apply_state m (extractCall op (init_state m) args).1)
        (callDirect op m args).1 ∧
      (extractCall op (init_state m) args).2 = (callDirect op m args).2 := by
  constructor
  · exact modEq_apply_state (wfMod_execStmts args op.body hm)
      (keys_execStmts_subset args op.body m)
  · rfl

/-- The increment operation of the spec's concrete scenario:
`counter = counter + 1`, returning the new counter. -/
def incrementOp : Op :=
  ⟨[Stmt.assign "counter" (Expr.add (Expr.read "counter") (Expr.const 1))],
    Expr.read "counter"⟩

theorem use_state_round_trip_witness :
    WfMod [(("counter" : Path), (0 : Value))] ∧
      getAttr
        (apply_state [(("counter" : Path), (0 : Value))]
          (extractCall incrementOp
            (init_state [(("counter" : Path), (0 : Value))]) []).1)
        "counter" =
      getAttr (callDirect incrementOp [(("counter" : Path), (0 : Value))] []).1
        "counter" := by
  refine ⟨by decide, ?_⟩
  exact (use_state_round_trip incrementOp [("counter", 0)] [] (by decide)).1
    "counter"

/-- The keys appearing in either of two snapshots, without duplication of the
first snapshot's keys. -/
def unionKeys (st sf : Snapshot) : List Path :=
  keys st ++ (keys sf).filter (fun p => decide (p ∉ keys st))

theorem mem_unionKeys (st sf : Snapshot) (p : Path) :
    p ∈ unionKeys st sf ↔ p ∈ keys st ∨ p ∈ keys sf := by
  simp only [unionKeys, List.mem_append, List.mem_filter, decide_eq_true_eq]
  tauto

theorem getAttr_ofSelector (g : Path → Option Value) (L : List Path)
    (q : Path) :
    getAttr (L.filterMap (fun p => (g p).map (fun v => (p, v)))) q =
      if q ∈ L then g q else none := by
  induction L with
  | nil => simp [getAttr]
  | cons p L ih =>
    by_cases hq : q = p
    · subst hq
      cases hg : g q with
      | none => simp [List.filterMap_cons, hg, ih]
      | some v => simp [List.filterMap_cons, hg, getAttr]
    · cases hg : g p with
      | none =>
        simp only [List.filterMap_cons, hg, Option.map_none', ih, List.mem_cons]
        have : ¬(q = p ∨ q ∈ L) ↔ ¬q ∈ L := by tauto
        by_cases hL : q ∈ L
        · simp [hL, hq]
        · simp [hL, hq]
      | some v =>
        have hpq : ¬p = q := fun h => hq h.symm
        simp only [List.filterMap_cons, hg, Option.map_some', getAttr,
          if_neg hpq, ih, List.mem_cons]
        simp [hq]

/-- Per-element selection of the state each branch produced: every key either
branch wrote is selected from the true-branch state when the predicate holds
and from the false-branch state otherwise. -/
def selectState (pred : Bool) (st sf : Snapshot) : Snapshot :=
  (unionKeys st sf).filterMap
    (fun p => (bif pred then getAttr st p else getAttr sf p).map (fun v => (p, v)))

theorem getAttr_selectState_true (st sf : Snapshot) (p : Path) :
    getAttr (selectState true st sf) p = getAttr st p := by
  rw [selectState]
  simp only [cond_true]
  rw [getAttr_ofSelector (getAttr st) (unionKeys st sf) p]
  by_cases h : p ∈ unionKeys st sf
  · rw [if_pos h]
  · rw [if_neg h]
    have hp : p ∉ keys st := fun hk => h ((mem_unionKeys st sf p).mpr (Or.inl hk))
    exact ((getAttr_eq_none_iff st p).mpr hp).symm

theorem getAttr_selectState_false (st sf : Snapshot) (p : Path) :
    getAttr (selectState false st sf) p = getAttr sf p := by
  rw [selectState]
  simp only [cond_false]
  rw [getAttr_ofSelector (getAttr sf) (unionKeys st sf) p]
  by_cases h : p ∈ unionKeys st sf
  · rw [if_pos h]
  · rw [if_neg h]
    have hp : p ∉ keys sf := fun hk => h ((mem_unionKeys st sf p).mpr (Or.inr hk))
    exact ((getAttr_eq_none_iff sf p).mpr hp).symm

/-- Modelled from the spec: `TracingCond(true_branch, false_branch)` whose
`evaluate` invokes both branches unconditionally and selects the result and
the merged state per element by the predicate's boolean value (spec section
4.3); the `TracingCond` implementation is missing from the source tree. The
scalar-vectorized size-1 case carries a single boolean predicate. -/
structure TracingCond where
  true_branch : Snapshot → Value → Snapshot × Value
  false_branch : Snapshot → Value → Snapshot × Value

/-- Both branches run on the incoming state and operand; the predicate only
chooses, per element, which branch's result and state updates survive. -/
def TracingCond.evaluate (c : TracingCond) (pred : Bool) (s : Snapshot)
    (x : Value) : Snapshot × Value :=
  let rt := c.true_branch s x
  let rf := c.false_branch s x
  (selectState pred rt.1 rf.1, if pred then rt.2 else rf.2)

/-- C3: At vectorized size 1, `Cond(f, g).evaluate(pred, state, x)` agrees
with `f(state, x)` when the predicate is true and with `g(state, x)` when it
is false — in the returned value exactly and in the returned state
observationally — although `evaluate` runs both branches unconditionally and
selects per element. -/
theorem tracingCond_evaluate_agrees (c : TracingCond) (pred : Bool)
    (s : Snapshot) (x : Value) :
    ModEq (c.evaluate pred s x).1
        (if pred then (c.true_branch s x).1 else (c.false_branch s x).1) ∧
      (c.evaluate pred s x).2 =
        (if pred then (c.true_branch s x).2 else (c.false_branch s x).2) := by
  cases pred
  · exact ⟨fun p => getAttr_selectState_false _ _ p, rfl⟩
  · exact ⟨fun p => getAttr_selectState_true _ _ p, rfl⟩

/-- Error kinds of the compilation layer (spec section 7). -/
inductive CompileError where
  | NestedCompilationConflict
  | IterationLimitExceeded
deriving DecidableEq

/-- Modelled from the spec: `TracingWhile(cond, body).loop` iterates the body
while the condition holds, bounded by an explicit iteration cap (spec section
4.3); the `TracingWhile` implementation is missing from the source tree. -/
structure TracingWhile (σ : Type) where
  cond : σ → Bool
  body : σ → σ

/-- Iterate with the remaining iteration budget as fuel; returns the final
state and the number of body iterations performed, or fails once the budget
is exhausted while the condition still holds. -/
def TracingWhile.loopAux {σ : Type} (w : TracingWhile σ) :
    Nat → σ → Except CompileError (σ × Nat)
  | 0, s => if w.cond s then .error .IterationLimitExceeded else .ok (s, 0)
  | fuel + 1, s =>
    if w.cond s then
      match w.loopAux fuel (w.body s) with
      | .ok sk => .ok (sk.1, sk.2 + 1)
      | .error e => .error e
    else .ok (s, 0)

/-- Run the loop under the configured iteration cap. -/
def TracingWhile.loop {σ : Type} (w : TracingWhile σ) (cap : Nat) (s : σ) :
    Except CompileError (σ × Nat) :=
  w.loopAux cap s

/-- The state after `k` iterations of the loop body. -/
def iterBody {σ : Type} (w : TracingWhile σ) : Nat → σ → σ
  | 0, s => s
  | k + 1, s => iterBody w k (w.body s)

/-- C4: If the condition is false for the first time after exactly `k`
iterations and `k` does not exceed the cap, the loop returns the state after
exactly `k` body iterations together with the count `k`; if the condition
still holds throughout the whole budget, the loop fails with
`IterationLimitExceeded` instead of running further. -/
theorem tracingWhile_loop_terminates {σ : Type} (w : TracingWhile σ)
    (cap k : Nat) (s : σ) :
    ((∀ i, i < k → w.cond (iterBody w i s) = true) →
        w.cond (iterBody w k s) = false → k ≤ cap →
        w.loop cap s = .ok (iterBody w k s, k)) ∧
      ((∀ i, i ≤ cap → w.cond (iterBody w i s) = true) →
        w.loop cap s = .error .IterationLimitExceeded) := by
  constructor
  · intro hlt hstop hle
    induction k generalizing cap s with
    | zero =>
      have h0 : w.cond s = false := hstop
      cases cap with
      | zero => simp [TracingWhile.loop, TracingWhile.loopAux, h0, iterBody]
      | succ c => simp [TracingWhile.loop, TracingWhile.loopAux, h0, iterBody]
    | succ k ih =>
      have h0 : w.cond s = true := hlt 0 (Nat.succ_pos k)
      cases cap with
      | zero => exact absurd hle (Nat.not_succ_le_zero k)
      | succ c =>
        have hrec : w.loop c (w.body s) = .ok (iterBody w k (w.body s), k) :=
          ih c (w.body s) (fun i hi => hlt (i + 1) (Nat.succ_lt_succ hi))
            hstop (Nat.le_of_succ_le_succ hle)
        rw [TracingWhile.loop, TracingWhile.loopAux, if_pos h0]
        rw [TracingWhile.loop] at hrec
        rw [hrec]
        rfl
  · intro hall
    induction cap generalizing s with
    | zero =>
      have h0 : w.cond s = true := hall 0 (Nat.le_refl 0)
      simp [TracingWhile.loop, TracingWhile.loopAux, h0]
    | succ c ih =>
      have h0 : w.cond s = true := hall 0 (Nat.zero_le _)
      have hrec : w.loop c (w.body s) = .error .IterationLimitExceeded :=
        ih (w.body s) (fun i hi => hall (i + 1) (Nat.succ_le_succ hi))
      rw [TracingWhile.loop, TracingWhile.loopAux, if_pos h0]
      rw [TracingWhile.loop] at hrec
      rw [hrec]

/-- A loop counting up to 3: its condition turns false after exactly 3
iterations, inside a cap of 5. -/
def countToThree : TracingWhile Nat :=
  ⟨fun s => decide (s < 3), fun s => s + 1⟩

/-- A loop whose condition never turns false. -/
def spinForever : TracingWhile Nat :=
  ⟨fun _ => true, fun s => s + 1⟩

theorem tracingWhile_loop_terminates_witness :
    countToThree.loop 5 0 = .ok (3, 3) ∧
      spinForever.loop 2 0 = .error .IterationLimitExceeded := by
  constructor
  · exact (tracingWhile_loop_terminates countToThree 5 3 0).1
      (by decide) (by decide) (by decide)
  · exact (tracingWhile_loop_terminates spinForever 2 0 0).2 (by decide)

/-- C8: State extraction captures an attribute assigned during the call even
when the initial snapshot does not bind it, and tracks attributes by dotted
path: writing through one path never changes the entry of a distinct path,
even one flattened from the same underlying storage. -/
theorem state_capture_and_path_independence (s : Snapshot) (p p1 p2 : Path)
    (e : Expr) (r : Expr) (args : List Value) (v : Value) :
    (getAttr s p = none →
        getAttr (extractCall ⟨[Stmt.assign p e], r⟩ s args).1 p =
          some (evalExpr args s e)) ∧
      (p1 ≠ p2 →
        getAttr (setAttr s p1 v) p1 = some v ∧
          getAttr (setAttr s p1 v) p2 = getAttr s p2) := by
  constructor
  · intro _
    exact getAttr_setAttr_self s p (evalExpr args s e)
  · intro hne
    exact ⟨getAttr_setAttr_self s p1 v, getAttr_setAttr_ne s hne v⟩

theorem state_capture_and_path_independence_witness :
    getAttr [(("a" : Path), (5 : Value))] "b" = none ∧
      getAttr
        (extractCall ⟨[Stmt.assign "b" (Expr.const 7)], Expr.const 0⟩
          [(("a" : Path), (5 : Value))] []).1 "b" = some 7 ∧
      getAttr
        (setAttr [(("a" : Path), (5 : Value)), ("b", 5)] "a" 9) "b" =
        getAttr [(("a" : Path), (5 : Value)), ("b", 5)] "b" := by
  refine ⟨by decide, ?_, ?_⟩
  · exact (state_capture_and_path_independence [("a", 5)] "b" "x" "y"
      (Expr.const 7) (Expr.const 0) [] 0).1 (by decide)
  · exact ((state_capture_and_path_independence [("a", 5), ("b", 5)] "p" "a"
      "b" (Expr.const 0) (Expr.const 0) [] 9).2 (by decide)).2

/-- C2: Applying the extracted pure increment function twice in sequence,
starting from the initial state binding `counter` to 0, yields the state
binding `counter` to 2. -/
theorem counter_increment_twice :
    (extractCall incrementOp
        (extractCall incrementOp [(("counter" : Path), (0 : Value))] []).1
        []).1 =
      [(("counter" : Path), (2 : Value))] := by
  rfl

/-- Logical operation identifiers. -/
abbrev OpId := String

/-- Compilation modes admitting an override implementation: trace-JIT time
or vectorized-map-JIT time. -/
inductive Mode where
  | trace
  | vectorized
deriving DecidableEq

/-- Generic association-list lookup (first binding wins). -/
def lookupA {κ α : Type} [DecidableEq κ] : List (κ × α) → κ → Option α
  | [], _ => none
  | (q, v) :: rest, k => if q = k then some v else lookupA rest k

/-- Generic association-list overwrite-or-append. -/
def setA {κ α : Type} [DecidableEq κ] : List (κ × α) → κ → α → List (κ × α)
  | [], k, v => [(k, v)]
  | (q, w) :: rest, k, v =>
    if q = k then (q, v) :: rest else (q, w) :: setA rest k v

theorem lookupA_setA_self {κ α : Type} [DecidableEq κ]
    (l : List (κ × α)) (k : κ) (v : α) : lookupA (setA l k v) k = some v := by
  induction l with
  | nil => simp [setA, lookupA]
  | cons hd tl ih =>
    obtain ⟨q, w⟩ := hd
    by_cases h : q = k
    · simp [setA, lookupA, h]
    · simp [setA, lookupA, h, ih]

theorem lookupA_some_mem {κ α : Type} [DecidableEq κ]
    {l : List (κ × α)} {k : κ} {a : α} (h : lookupA l k = some a) :
    (k, a) ∈ l := by
  induction l with
  | nil => simp [lookupA] at h
  | cons hd tl ih =>
    obtain ⟨q, w⟩ := hd
    by_cases hq : q = k
    · subst hq
      simp [lookupA] at h
      subst h
      exact List.mem_cons_self _ _
    · simp [lookupA, hq] at h
      exact List.mem_cons_of_mem _ (ih h)

/-- Modelled from the spec: the Variant Registry records, per logical
operation, an optional override implementation per compilation mode (spec
sections 4.1 and 3); the `trace_impl`/`vmap_impl` registry implementation is
missing from the source tree. -/
structure Registry (α : Type) where
  overrides : List ((OpId × Mode) × α)

/-- Register an implementation for an (operation, mode) pair, overwriting
any previous one; the returned flag records whether an overwrite warning was
issued. Registration never fails. -/
def Registry.register {α : Type} (r : Registry α) (op : OpId) (m : Mode)
    (impl : α) : Registry α × Bool :=
  (⟨setA r.overrides (op, m) impl⟩, (lookupA r.overrides (op, m)).isSome)

/-- Resolve the implementation active for an (operation, mode) pair: the
mode-specific override when present, the default otherwise. -/
def Registry.resolve {α : Type} (dflt : OpId → α) (r : Registry α)
    (op : OpId) (m : Mode) : α :=
  match lookupA r.overrides (op, m) with
  | some impl => impl
  | none => dflt op

/-- C5: Resolution returns the registered mode-specific implementation when
one exists and the default otherwise; registering a second implementation
for the same (operation, mode) pair overwrites the first, raises the
overwrite warning, and never fails (registration is total). -/
theorem registry_register_resolve {α : Type} (dflt : OpId → α)
    (r : Registry α) (op : OpId) (m : Mode) (i j : α) :
    Registry.resolve dflt (r.register op m i).1 op m = i ∧
      (lookupA r.overrides (op, m) = none →
        Registry.resolve dflt r op m = dflt op) ∧
      Registry.resolve dflt ((r.register op m i).1.register op m j).1 op m
        = j ∧
      ((r.register op m i).1.register op m j).2 = true := by
  refine ⟨?_, ?_, ?_, ?_⟩
  · rw [Registry.resolve, Registry.register, lookupA_setA_self]
  · intro h
    rw [Registry.resolve, h]
  · rw [Registry.resolve, Registry.register, Registry.register,
      lookupA_setA_self]
  · rw [Registry.register, Registry.register, lookupA_setA_self]
    rfl

theorem registry_register_resolve_witness :
    Registry.resolve (fun _ => (0 : Nat))
        ((Registry.mk [] : Registry Nat).register "step" Mode.trace 1).1
        "step" Mode.trace = 1 ∧
      Registry.resolve (fun _ => (0 : Nat)) (Registry.mk [] : Registry Nat)
        "step" Mode.trace = 0 := by
  constructor
  · exact (registry_register_resolve (fun _ => 0) ⟨[]⟩ "step" Mode.trace
      1 2).1
  · exact ((registry_register_resolve (fun _ => 0) ⟨[]⟩ "step" Mode.trace
      1 2).2).1 rfl

/-- A compilation signature: operation identity, mode, and the example
input shape. -/
abbrev Sig := OpId × Mode × List Nat

instance : DecidableEq Sig := inferInstanceAs (DecidableEq (OpId × Mode × List Nat))

/-- Modelled from the spec: the Compilation Dispatcher's artifact cache,
keyed by signature, invalidated only by an explicit clear (spec sections 4.4
and 3); the `jit`/`vmap` caching implementation is missing from the source
tree. -/
structure Dispatcher (α : Type) where
  cache : List (Sig × α)

/-- Compile a signature: a cache hit returns the cached artifact directly, a
miss builds the artifact and records it. `build` is the pure compilation of
a signature into an artifact. -/
def Dispatcher.compile {α : Type} (build : Sig → α) (d : Dispatcher α)
    (sig : Sig) : Dispatcher α × α :=
  match lookupA d.cache sig with
  | some a => (d, a)
  | none => (⟨(sig, build sig) :: d.cache⟩, build sig)

/-- Explicitly clear the artifact cache. -/
def Dispatcher.clearCache {α : Type} (_ : Dispatcher α) : Dispatcher α :=
  ⟨[]⟩

/-- Every cached artifact is the one the pure compilation produces for its
signature. -/
def WfCache {α : Type} (build : Sig → α) (d : Dispatcher α) : Prop :=
  ∀ sig a, (sig, a) ∈ d.cache → a = build sig

theorem compile_eq_build {α : Type} (build : Sig → α) {d : Dispatcher α}
    (hd : WfCache build d) (sig : Sig) :
    (d.compile build sig).2 = build sig := by
  rw [Dispatcher.compile]
  cases h : lookupA d.cache sig with
  | none => rfl
  | some a => exact hd sig a (lookupA_some_mem h)

theorem wfCache_compile {α : Type} (build : Sig → α) {d : Dispatcher α}
    (hd : WfCache build d) (sig : Sig) :
    WfCache build (d.compile build sig).1 := by
  rw [Dispatcher.compile]
  cases h : lookupA d.cache sig with
  | none =>
    intro s a hmem
    rcases List.mem_cons.mp hmem with he | hin
    · rw [(Prod.mk.injEq _ _ _ _).mp he |>.2,
        (Prod.mk.injEq _ _ _ _).mp he |>.1]
    · exact hd s a hin
  | some a => exact hd

/-- C6: Compilation is deterministic: with a well-formed cache, compiling a
signature yields exactly the pure compilation of that signature, compiling
the same signature twice yields the same artifact, and recompiling after an
explicit cache clear is observably equivalent to the original compilation. -/
theorem compile_deterministic {α : Type} (build : Sig → α) (d : Dispatcher α)
    (sig : Sig) (hd : WfCache build d) :
    (d.compile build sig).2 = build sig ∧
      ((d.compile build sig).1.compile build sig).2 =
        (d.compile build sig).2 ∧
      (d.clearCache.compile build sig).2 = (d.compile build sig).2 := by
  have h1 := compile_eq_build build hd sig
  have h2 := compile_eq_build build (wfCache_compile build hd sig) sig
  have hclear : WfCache build d.clearCache := by
    intro s a hmem
    simp [Dispatcher.clearCache] at hmem
  have h3 := compile_eq_build build hclear sig
  exact ⟨h1, h2.trans h1.symm, h3.trans h1.symm⟩

theorem compile_deterministic_witness :
    ((Dispatcher.mk [] : Dispatcher Nat).compile (fun _ => 42)
        ("step", Mode.trace, [3])).2 = 42 := by
  exact (compile_deterministic (fun _ => 42) ⟨[]⟩ ("step", Mode.trace, [3])
    (fun s a h => by simp at h)).1

/-- Whether the enclosing-compilation stack (innermost frame first) holds a
trace-mode frame of the given operation. -/
def containsTraceOf (stack : List (OpId × Mode)) (op : OpId) : Bool :=
  stack.any (fun f => decide (f.1 = op) && decide (f.2 = Mode.trace))

/-- Whether requesting a trace-mode compile of `op` under this stack closes
the forbidden cycle: some enclosing vectorized frame is itself enclosed by a
trace frame of the same operation. -/
def conflictAt (stack : List (OpId × Mode)) (op : OpId) : Bool :=
  match stack with
  | [] => false
  | f :: rest =>
    (decide (f.2 = Mode.vectorized) && containsTraceOf rest op)
      || conflictAt rest op

/-- The compile requests a compilation's body issues, as a nesting tree. -/
inductive Body where
  | leaf
  | compileNode (op : OpId) (mode : Mode) (inner : Body)

/-- Modelled from the spec: the Compilation Dispatcher rejects a trace-mode
compile nested inside a vectorized compile that is itself inside a
trace-mode compile of the same, non-overridden operation, failing with
`NestedCompilationConflict` (spec sections 4.4 and 7); the `jit`/`vmap`
nesting check implementation is missing from the source tree. -/
def runBody (hasTraceOverride : OpId → Bool) :
    List (OpId × Mode) → Body → Except CompileError Unit
  | _, .leaf => .ok ()
  | stack, .compileNode op mode inner =>
    if mode = Mode.trace ∧ hasTraceOverride op = false ∧
        conflictAt stack op = true then
      .error .NestedCompilationConflict
    else runBody hasTraceOverride ((op, mode) :: stack) inner

/-- C7: A trace-mode compile of an operation whose body contains a nested
vectorized compile that itself contains a trace-mode compile of the same
operation with no registered trace override fails with
`NestedCompilationConflict`; the structural error is raised, not silently
ignored. -/
theorem nested_compile_conflict (ov : OpId → Bool) (op op2 : OpId)
    (inner : Body) (hov : ov op = false) :
    runBody ov []
        (Body.compileNode op Mode.trace
          (Body.compileNode op2 Mode.vectorized
            (Body.compileNode op Mode.trace inner))) =
      .error CompileError.NestedCompilationConflict := by
  simp [runBody, conflictAt, containsTraceOf, hov]

theorem nested_compile_conflict_witness :
    runBody (fun _ => false) []
        (Body.compileNode "step" Mode.trace
          (Body.compileNode "step" Mode.vectorized
            (Body.compileNode "step" Mode.trace Body.leaf))) =
      .error CompileError.NestedCompilationConflict :=
  nested_compile_conflict (fun _ => false) "step" "step" Body.leaf rfl

/-- A member method of a module class: receives the module and the call
arguments, returns the possibly mutated module and the result value. -/
abbrev Method := Module → List Value → Module × Value

/-- Wrap a method for trace-JIT: side effects cannot be traced, so the
wrapped method additionally returns self (the module after the call). -/
def traceWrap (f : Method) : Module → List Value → Module × (Value × Option Module) :=
  fun m a => ((f m a).1, ((f m a).2, some (f m a).1))

/-- Wrap a method for script-JIT: the return value is unchanged. -/
def scriptWrap (f : Method) : Module → List Value → Module × (Value × Option Module) :=
  fun m a => ((f m a).1, ((f m a).2, none))

/-- Modelled from the spec: `jit_class(cls, trace)` lazily wraps every member
method of the class; with trace=true each member method is effectively
modified to return self additionally, since side effects cannot be traced
(notebook section on `jit_class`); the `jit_class` implementation is missing
from the source tree. -/
def jit_class (methods : List (String × Method)) (tr : Bool) :
    List (String × (Module → List Value → Module × (Value × Option Module))) :=
  methods.map (fun nf => (nf.1, if tr then traceWrap nf.2 else scriptWrap nf.2))

/-- C9: Under `jit_class` with trace=true, every member method of the class
is wrapped into a variant whose return value includes the module itself
alongside the original result, for every module state and argument list. -/
theorem jit_class_trace_returns_self (methods : List (String × Method))
    (n : String) (f : Method) (h : (n, f) ∈ methods) :
    ∃ g, (n, g) ∈ jit_class methods true ∧
      ∀ m a, g m a = ((f m a).1, ((f m a).2, some (f m a).1)) := by
  refine ⟨traceWrap f, ?_, fun m a => rfl⟩
  exact List.mem_map.mpr ⟨(n, f), h, rfl⟩

/-- A concrete method writing its argument into the `counter` attribute. -/
def setCounter : Method :=
  fun m a => (setAttr m "counter" (a.getD 0 0), a.getD 0 0)

theorem jit_class_trace_returns_self_witness :
    ∃ g, (("set", g) ∈ jit_class [("set", setCounter)] true) ∧
      ∀ m a, g m a =
        ((setCounter m a).1, ((setCounter m a).2, some (setCounter m a).1)) :=
  jit_class_trace_returns_self [("set", setCounter)] "set" setCounter
    (List.mem_singleton.mpr rfl)

/-- The argument accepted by `use_state`: either a zero-argument generator
producing the stateful operation, or the stateful operation itself. -/
inductive UseStateArg where
  | generator (g : Unit → Op)
  | direct (f : Op)

/-- Modelled from the spec: `use_state(func, is_generator=True)` transforms a
stateful function into its pure-functional version; `is_generator` tells
whether `func` is the stateful function itself or a zero-argument generator
producing it, and defaults to True (notebook section on `use_state`); the
`use_state` implementation is missing from the source tree. A mismatch
between the flag and the argument's actual shape is a failure. -/
def use_state (func : UseStateArg) (is_generator : Bool := true) :
    Option (Snapshot → List Value → Snapshot × Value) :=
  match is_generator, func with
  | true, .generator g => some (extractCall (g ()))
  | false, .direct f => some (extractCall f)
  | _, _ => none

/-- C10: Called with no second argument, `use_state` treats its argument as
a zero-argument generator producing the stateful function — the generator is
invoked and its produced operation extracted — and does not treat the
argument as the stateful function itself. -/
theorem use_state_default_is_generator (g : Unit → Op) (f : Op) :
    use_state (UseStateArg.generator g) = some (extractCall (g ())) ∧
      use_state (UseStateArg.direct f) = none :=
  ⟨rfl, rfl⟩

end EvoX
